import Mathlib

/-!
Verification development for the Git command/query layer (`cola/gitcmds.py`).

Python strings are embedded as lists of characters (`Str`); fallible Python
operations (`list.index`, `str.index`, subscripting) return `Except PyErr`.
External collaborators (the `git` subprocess, the filesystem, the config
model) are passed in as explicit parameters holding the data the real code
would obtain from them.
-/

abbrev Str := List Char

deriving instance DecidableEq for Except

/-- Python exceptions that the embedded code can raise. -/
inductive PyErr where
  | indexError
  | valueError
  | nameError
deriving DecidableEq, Repr

/-- Python `list.index` / `str.index` first-occurrence search, `none` when the
element is absent (the caller turns `none` into a `ValueError`). -/
def pyIndex {α : Type} [DecidableEq α] (x : α) : List α → Option Nat
  | [] => none
  | y :: ys => if y = x then some 0 else (pyIndex x ys).map (· + 1)

/-- Position of the first occurrence of `x` (length of the list when absent);
used to state positional-adjacency properties. -/
def idxOf (x : Str) : List Str → Nat
  | [] => 0
  | y :: ys => if y = x then 0 else idxOf x ys + 1

/-- Python `str.isspace` characters relevant to `str.strip()` / `str.split()`. -/
def isPySpace (c : Char) : Bool :=
  c == ' ' || c == '\t' || c == '\n' || c == '\r' || c == Char.ofNat 11 || c == Char.ofNat 12

/-- Python `str.strip()`: drop leading and trailing whitespace. -/
def pyStrip (s : Str) : Str :=
  ((s.dropWhile isPySpace).reverse.dropWhile isPySpace).reverse

/-- Python `str.split()` with no argument: split on whitespace runs,
discarding empty fields. -/
def pySplitAux (cur : Str) : Str → List Str
  | [] => if cur.isEmpty then [] else [cur.reverse]
  | c :: cs =>
    if isPySpace c then
      if cur.isEmpty then pySplitAux [] cs else cur.reverse :: pySplitAux [] cs
    else pySplitAux (c :: cur) cs

def pySplit (s : Str) : List Str := pySplitAux [] s

/-- Python `str.splitlines()` restricted to newline separators: split on
newline characters, with a trailing newline not producing a final empty line. -/
def splitlines (s : Str) : List Str :=
  let parts := s.splitOn '\n'
  match parts.getLast? with
  | some [] => parts.dropLast
  | _ => parts

/-- Python truthiness of an optional string (`None` and `''` are falsy). -/
def truthy : Option Str → Bool
  | none => false
  | some s => !s.isEmpty

/-- Python `str.replace` on single characters. -/
def pyReplace (s : Str) (a b : Char) : Str :=
  s.map (fun c => if c = a then b else c)

/-! ## `current_branch` and its stat cache -/

/-- The class-level stat cache `_current_branch` (`st_mtime` initialised to 0,
`value` to `None`). -/
structure Cache where
  st_mtime : Nat
  value : Option Str
deriving DecidableEq, Repr

def initial_cache : Cache := ⟨0, none⟩

/-- Filesystem reads that touch content (`os.path.realpath` resolves links,
`utils.slurp` reads the file); `os.stat` / `os.path.islink` / `os.path.isfile`
are metadata queries and are not listed. -/
inductive ReadOp where
  | realpath
  | slurp
deriving DecidableEq, Repr

/-- The filesystem state observed by one call of `current_branch`:
result of `os.stat(head)` (`none` when it raises `OSError`),
`os.path.islink(head)`, `os.path.abspath(head)`,
`os.path.realpath(<repo>/refs/heads)`, `os.path.isfile(head)`, and the
content `utils.slurp(head)` would return. -/
structure FS where
  stat_mtime : Option Nat
  islink : Bool
  head_abspath : Str
  refs_heads_realpath : Str
  isfile : Bool
  head_contents : Str
deriving DecidableEq, Repr

/-- `current_branch()` (gitcmds.py lines 56-91): returns the branch value
(`none` embeds Python `None`), the cache left behind, and the list of
content-reading filesystem operations performed.  The `nameError` outcome is
the source's reference to `st` on a path where `os.stat` raised. -/
def current_branch (fs : FS) (c : Cache) : Except PyErr (Option Str × Cache × List ReadOp) :=
  let head := fs.head_abspath
  let hit : Bool :=
    match fs.stat_mtime with
    | some m => c.st_mtime == m
    | none => false
  if hit then .ok (c.value, c, [])
  else if fs.islink then
    -- Handle legacy .git/HEAD symlinks
    let refs_heads := fs.refs_heads_realpath
    let path := pyReplace head '\\' '/'
    if (refs_heads ++ ['/']).isPrefixOf path then
      match fs.stat_mtime with
      | none => .error .nameError
      | some m =>
        let value := path.drop (refs_heads.length + 1)
        .ok (some value, ⟨m, some value⟩, [.realpath])
    else .ok (some [], c, [.realpath])
  else if fs.isfile then
    -- Handle the common .git/HEAD "ref: refs/heads/master" file
    match fs.stat_mtime with
    | none => .error .nameError
    | some m =>
      let value0 := pyStrip fs.head_contents
      let refPre : Str := "ref: refs/heads/".toList
      let value := if refPre.isPrefixOf value0 then value0.drop refPre.length else value0
      .ok (some value, ⟨m, some value⟩, [.slurp])
  else
    -- This shouldn't happen
    .ok (some [], c, [])

/-! ## Field-assignment granularity of the cache update -/

/-- One atomic attribute assignment on the `_current_branch` cache. -/
inductive FieldWrite where
  | writeMtime (m : Nat)
  | writeValue (v : Option Str)
deriving DecidableEq, Repr

def applyWrite (c : Cache) : FieldWrite → Cache
  | .writeMtime m => { c with st_mtime := m }
  | .writeValue v => { c with value := v }

/-- Write sequence of the plain-file path (lines 86-87):
`_current_branch.st_mtime = ...` then `_current_branch.value = ...`. -/
def isfile_writes (m : Nat) (v : Str) : List FieldWrite :=
  [.writeMtime m, .writeValue (some v)]

/-- Write sequence of the symlink path (lines 74-75):
`_current_branch.value = ...` then `_current_branch.st_mtime = ...`. -/
def symlink_writes (m : Nat) (v : Str) : List FieldWrite :=
  [.writeValue (some v), .writeMtime m]

/-- Cache states observable by a concurrent reader: the state before the
update and after each individual assignment. -/
def observable (c0 : Cache) (ws : List FieldWrite) : List Cache :=
  ws.scanl applyWrite c0

/-! ## Branch and tag listings (`for_each_ref_basename`, `branch_list`) -/

/-- `for_each_ref_basename(refs)` (lines 107-111); `raw` is the output of
`git for-each-ref <refs> --format=%(refname)`. -/
def for_each_ref_basename (raw : Str) (refs : Str) : List Str :=
  let output := splitlines raw
  let non_heads := output.filter (fun x => !(("/HEAD".toList).isSuffixOf x))
  non_heads.map (fun x => x.drop refs.length)

/-- `branch_list(remote)` (lines 94-104); `raw` is the ref enumeration output
for the corresponding prefix query. -/
def branch_list (raw : Str) (remote : Bool) : List Str :=
  if remote then for_each_ref_basename raw ("refs/remotes/".toList)
  else for_each_ref_basename raw ("refs/heads/".toList)

/-- `tag_list()` (lines 143-147). -/
def tag_list (raw : Str) : List Str :=
  (for_each_ref_basename raw ("refs/tags/".toList)).reverse

/-! ## `tracked_branch` -/

/-- The configuration model: `has_param(k)` is `(cfg k).isSome`,
`param(k)` is the stored value. -/
def has_param (cfg : Str → Option Str) (k : Str) : Bool := (cfg k).isSome

def param (cfg : Str → Option Str) (k : Str) : Str := (cfg k).getD []

def remoteKey (branch : Str) : Str :=
  "local_branch_".toList ++ branch ++ "_remote".toList

def mergeKey (branch : Str) : Str :=
  "local_branch_".toList ++ branch ++ "_merge".toList

/-- `tracked_branch(branch)` (lines 114-132) for an explicit branch name. -/
def tracked_branch (cfg : Str → Option Str) (branch : Str) : Str :=
  let branch_remote := remoteKey branch
  if !has_param cfg branch_remote then []
  else
    let remote := param cfg branch_remote
    if remote.isEmpty then []
    else
      let branch_merge := mergeKey branch
      if !has_param cfg branch_merge then []
      else
        let ref := param cfg branch_merge
        let refs_heads : Str := "refs/heads/".toList
        if refs_heads.isPrefixOf ref then remote ++ ['/'] ++ ref.drop refs_heads.length
        else []

/-! ## Diff engine (`diff_helper`, `commit_diff`) -/

/-- Modelled from the spec: the Output Decoder (spec 4.2) is best-effort
decoding that is transparent to already-text inputs; over an embedding whose
strings are already text it is the identity.  `cola/core.py` is not part of
the given source. -/
def core_decode (s : Str) : Str := s

/-- Modelled from the spec: symmetric encode of the Output Decoder (spec 4.2),
identity on text for the same reason as `core_decode`. -/
def core_encode (s : Str) : Str := s

/-- The `filename` argument of `diff_helper`: `None`, a string, or a list. -/
inductive FileArg where
  | nofile
  | str (s : Str)
  | list (l : List Str)
deriving DecidableEq, Repr

def FileArg.isTruthy : FileArg → Bool
  | .nofile => false
  | .str s => !s.isEmpty
  | .list l => !l.isEmpty

/-- External inputs of one `diff_helper` call: the (stderr-merged) output of
the `git diff` invocation and the result of
`os.path.exists(core.encode(filename))`. -/
structure DiffEnv where
  diffoutput : Str
  path_exists : Bool
deriving DecidableEq, Repr

/-- Python `in` on strings: substring (contiguous infix) test. -/
def strContains (hay needle : Str) : Bool := decide (List.IsInfix needle hay)

/-- The line loop of `diff_helper` (lines 216-225): state is the `start`
flag, the collected `headers` and the `output` buffer. -/
def diffLoop (deleted with_diff_header suppress_header : Bool)
    (start : Bool) (headers : List Str) (out : Str) : List Str → List Str × Str
  | [] => (headers, out)
  | rawline :: rest =>
    let line := core_decode rawline
    let start :=
      if !start && decide (line.take 2 = "@@".toList) && strContains (line.drop 2) ("@@".toList)
      then true else start
    if start || (deleted && strContains line ("deleted file mode ".toList)) then
      diffLoop deleted with_diff_header suppress_header start headers
        (out ++ core_encode line ++ ['\n']) rest
    else if with_diff_header then
      diffLoop deleted with_diff_header suppress_header start
        (headers ++ [core_encode line]) out rest
    else if !suppress_header then
      diffLoop deleted with_diff_header suppress_header start headers
        (out ++ core_encode line ++ ['\n']) rest
    else
      diffLoop deleted with_diff_header suppress_header start headers out rest

/-- `diff_helper` (lines 162-233).  The result is a single string
(`Sum.inl`) or a `(headers, body)` pair (`Sum.inr`) when
`with_diff_header` is set. -/
def diff_helper (env : DiffEnv)
    (commit : Option Str)
    (branch : Option Str)
    (ref : Option Str)
    (endref : Option Str)
    (filename : FileArg)
    (cached : Bool)
    (with_diff_header : Bool)
    (suppress_header : Bool)
    (reverse : Bool) : Str ⊕ (Str × Str) :=
  let refendref : Option Str × Option Str :=
    if truthy commit then (commit.map (· ++ ['^']), commit) else (ref, endref)
  let ref := refendref.1
  let endref := refendref.2
  let argv : List Str :=
    if truthy ref && truthy endref then
      [(ref.getD []) ++ "..".toList ++ (endref.getD [])]
    else if truthy ref then pySplit (pyStrip (ref.getD []))
    else if truthy branch then [branch.getD []]
    else []
  let argv :=
    if filename.isTruthy then
      argv ++ ["--".toList] ++
        (match filename with
         | .list l => l
         | .str s => [s]
         | .nofile => [])
    else argv
  let _ := argv  -- argv selects the subprocess invocation whose output is env.diffoutput
  let deleted := cached && !env.path_exists
  let diffoutput := env.diffoutput
  -- Handle 'git init'
  if ("fatal:".toList).isPrefixOf diffoutput then
    if with_diff_header then Sum.inr ([], []) else Sum.inl []
  else
    let diff := diffoutput.splitOn '\n'
    let (headers, out) := diffLoop deleted with_diff_header suppress_header false [] [] diff
    let result := core_decode out
    if with_diff_header then Sum.inr (List.intercalate ['\n'] headers, result)
    else Sum.inl result

/-- Projection used at call sites that pass `with_diff_header := false`
(there `diff_helper` always returns `Sum.inl`). -/
def asStr (r : Str ⊕ (Str × Str)) : Str :=
  match r with
  | Sum.inl s => s
  | Sum.inr p => p.1

/-- `commit_diff(sha1)` (lines 150-159); `showOutput` is the output of
`git show <sha1>` and `env` the inputs of the inner `diff_helper` call. -/
def commit_diff (showOutput : Str) (env : DiffEnv) (sha1 : Str) : Except PyErr Str :=
  let commit := showOutput
  match pyIndex '\n' commit with
  | none => .error .valueError
  | some first_newline =>
    if ("Merge:".toList).isPrefixOf (commit.drop (first_newline + 1)) then
      .ok (core_decode commit ++ "\n\n".toList ++
        core_decode (asStr
          (diff_helper env (some sha1) none none none .nofile false false false false)))
    else
      .ok (core_decode commit)

/-! ## Patch set exporter (`format_patchsets`, `export_patchset`) -/

/-- `patches_to_export[patchset_idx].append(rev)` where `patchset_idx` is
always the index of the last run. -/
def appendToLast (patches : List (List Str)) (rev : Str) : List (List Str) :=
  match patches with
  | [] => []
  | [g] => [g ++ [rev]]
  | g :: gs => g :: appendToLast gs rev

/-- The grouping loop of `format_patchsets` (lines 255-266): searches each
next selected revision in the remaining suffix `revs[cur_master_idx:]`
(`ValueError` when absent), extending the current run on adjacency and
starting a new run otherwise. -/
def groupLoop (revs : List Str) (cur_master_idx : Nat) (patches : List (List Str)) :
    List Str → Except PyErr (List (List Str))
  | [] => .ok patches
  | rev :: rest =>
    match pyIndex rev (revs.drop cur_master_idx) with
    | none => .error .valueError
    | some i =>
      let master_idx := i + cur_master_idx
      if master_idx = cur_master_idx + 1 then
        groupLoop revs (cur_master_idx + 1) (appendToLast patches rev) rest
      else
        groupLoop revs master_idx (patches ++ [[rev]]) rest

/-- The grouping phase of `format_patchsets` (lines 246-266):
`to_export[0]` raises `IndexError` on an empty selection,
`revs.index(cur_rev)` raises `ValueError` when the first selected revision is
not in the full list. -/
def format_patchsets_groups (to_export revs : List Str) :
    Except PyErr (List (List Str)) :=
  match to_export with
  | [] => .error .indexError
  | cur_rev :: rest =>
    match pyIndex cur_rev revs with
    | none => .error .valueError
    | some cur_master_idx => groupLoop revs cur_master_idx [[cur_rev]] rest

/-- Python `patchset[0]`. -/
def pyHead : List Str → Except PyErr Str
  | [] => .error .indexError
  | x :: _ => .ok x

/-- Python `patchset[-1]`. -/
def pyLast (l : List Str) : Except PyErr Str :=
  match l.getLast? with
  | none => .error .indexError
  | some x => .ok x

/-- The external `git format-patch` invocation wrapped by `export_patchset`
(lines 283-288): given the run's first and last revision and the `n`
(numbering) flag, it yields `(status, output)`; `thread` and
`patch_with_stat` are passed as constants by `format_patchsets`. -/
def ExportFn := Str → Str → Bool → Nat × Str

/-- `export_patchset(start, end, ...)` (lines 283-288). -/
def export_patchset (f : ExportFn) (start endrev : Str) (n : Bool) : Nat × Str :=
  f start endrev n

/-- The export loop of `format_patchsets` (lines 269-279): `status` keeps the
first nonzero per-run status (`if status == 0: status += newstatus`) and
`outlines` collects each run's log. -/
def exportLoop (f : ExportFn) (status : Nat) (outlines : List Str) :
    List (List Str) → Except PyErr (Nat × List Str)
  | [] => .ok (status, outlines)
  | patchset :: rest => do
    let s ← pyHead patchset
    let e ← pyLast patchset
    let r := export_patchset f s e (decide (patchset.length > 1))
    exportLoop f (if status = 0 then status + r.1 else status) (outlines ++ [r.2]) rest

/-- `format_patchsets(to_export, revs)` (lines 236-280). -/
def format_patchsets (f : ExportFn) (to_export revs : List Str) :
    Except PyErr (Nat × Str) := do
  let patches ← format_patchsets_groups to_export revs
  let r ← exportLoop f 0 [] patches
  return (r.1, List.intercalate ['\n'] r.2)

/-! ## Spec-side notions used to state the grouping claims -/

/-- Two revisions occupy adjacent positions of the full list. -/
def adjacentIn (revs : List Str) (a b : Str) : Prop :=
  idxOf b revs = idxOf a revs + 1

instance (revs : List Str) (a b : Str) : Decidable (adjacentIn revs a b) := by
  unfold adjacentIn; infer_instance

/-- Two consecutive runs are separated: the head of the second is not
positionally adjacent to the last element of the first. -/
def runBoundary (revs : List Str) (g h : List Str) : Prop :=
  ¬ adjacentIn revs (g.getLastD []) (h.headD [])

/-- The runs are exactly the maximal contiguous segments: every run is
non-empty, consecutive elements inside a run are adjacent in the full list,
and consecutive runs are not adjacent across the boundary. -/
def maximalRuns (revs : List Str) (gs : List (List Str)) : Prop :=
  (∀ g ∈ gs, g ≠ []) ∧
  (∀ g ∈ gs, List.Chain' (adjacentIn revs) g) ∧
  List.Chain' (runBoundary revs) gs

/-- Per-run export status as used by the aggregate-status claim. -/
def runStatus (f : ExportFn) (g : List Str) : Nat :=
  (f (g.headD []) (g.getLastD []) (decide (g.length > 1))).1

/-- Per-run export log as used by the aggregate-status claim. -/
def runOut (f : ExportFn) (g : List Str) : Str :=
  (f (g.headD []) (g.getLastD []) (decide (g.length > 1))).2

/-- First nonzero status across runs, zero when all are zero. -/
def firstNonzero (l : List Nat) : Nat := (l.find? (fun s => s ≠ 0)).getD 0

/-! ## Helper lemmas -/

lemma cons_sublist_decomp {a : Str} {l r : List Str} (h : (a :: l).Sublist r) :
    ∃ r₁ r₂, r = r₁ ++ a :: r₂ ∧ l.Sublist r₂ := by
  obtain ⟨s₁, s₂, rfl, hmem, hsub⟩ := List.cons_sublist_iff.1 h
  obtain ⟨t₁, t₂, rfl⟩ := List.append_of_mem hmem
  exact ⟨t₁, t₂ ++ s₂, by simp, hsub.trans (List.sublist_append_right _ _)⟩

/-- If the first call recorded the current modification time, the value it
recorded is the value it returned. -/
lemma current_branch_cache_value (fs : FS) (c : Cache) (m : Nat) (v : Option Str)
    (c1 : Cache) (ops : List ReadOp)
    (hm : fs.stat_mtime = some m)
    (h : current_branch fs c = .ok (v, c1, ops))
    (hc1 : c1.st_mtime = m) : c1.value = v := by
  by_cases h1 : c.st_mtime = m
  · simp [current_branch, hm, h1] at h
    obtain ⟨hv, hc, _⟩ := h
    rw [← hc, ← hv]
  · by_cases h2 : fs.islink
    · by_cases h3 : ((fs.refs_heads_realpath ++ ['/']).isPrefixOf
        (pyReplace fs.head_abspath '\\' '/')) = true
      · simp [current_branch, hm, h1, h2, h3] at h
        obtain ⟨hv, hc, _⟩ := h
        rw [← hc, ← hv]
      · simp [current_branch, hm, h1, h2, h3] at h
        obtain ⟨_, hc, _⟩ := h
        rw [← hc] at hc1
        exact absurd hc1 h1
    · by_cases h4 : fs.isfile
      · simp [current_branch, hm, h1, h2, h4] at h
        obtain ⟨hv, hc, _⟩ := h
        rw [← hc, ← hv]
      · simp [current_branch, hm, h1, h2, h4] at h
        obtain ⟨_, hc, _⟩ := h
        rw [← hc] at hc1
        exact absurd hc1 h1

/-! ### Lemmas for the grouping loop -/

lemma pyIndex_append {α : Type} [DecidableEq α] (x : α) (l r : List α) (hx : x ∉ l) :
    pyIndex x (l ++ x :: r) = some l.length := by
  induction l with
  | nil => simp [pyIndex]
  | cons y ys ih =>
    have hyx : ¬ y = x := fun h => hx (h ▸ List.mem_cons_self y ys)
    simp [pyIndex, hyx, ih (fun hc => hx (List.mem_cons_of_mem _ hc))]

lemma idxOf_append (x : Str) (l r : List Str) (hx : x ∉ l) :
    idxOf x (l ++ x :: r) = l.length := by
  induction l with
  | nil => simp [idxOf]
  | cons y ys ih =>
    have hyx : ¬ y = x := fun h => hx (h ▸ List.mem_cons_self y ys)
    simp [idxOf, hyx, ih (fun hc => hx (List.mem_cons_of_mem _ hc))]

lemma appendToLast_concat :
    ∀ (front : List (List Str)) (lastg : List Str) (x : Str),
      appendToLast (front ++ [lastg]) x = front ++ [lastg ++ [x]]
  | [], _, _ => rfl
  | [_], _, _ => rfl
  | g :: g' :: gs, lastg, x => by
    show g :: appendToLast ((g' :: gs) ++ [lastg]) x = _
    rw [appendToLast_concat (g' :: gs) lastg x]
    rfl

lemma headD_append_single (l : List Str) (a : Str) (h : l ≠ []) :
    (l ++ [a]).headD ([] : Str) = l.headD [] := by
  cases l with
  | nil => exact absurd rfl h
  | cons x xs => rfl

lemma nodup_facts {left r₁ r₂ : List Str} {prev rev : Str}
    (h : (left ++ prev :: (r₁ ++ rev :: r₂)).Nodup) :
    prev ∉ left ∧ rev ∉ left ∧ prev ≠ rev ∧ rev ∉ r₁ := by
  obtain ⟨-, h2, hdisj⟩ := List.nodup_append.1 h
  have hrevmem : rev ∈ prev :: (r₁ ++ rev :: r₂) := by simp
  have hprevmem : prev ∈ prev :: (r₁ ++ rev :: r₂) := by simp
  obtain ⟨hpn, h3⟩ := List.nodup_cons.1 h2
  refine ⟨fun hc => hdisj hc hprevmem, fun hc => hdisj hc hrevmem, ?_, ?_⟩
  · intro he
    apply hpn
    rw [he]
    simp
  · obtain ⟨-, -, hdisj2⟩ := List.nodup_append.1 h3
    exact fun hc => hdisj2 hc (by simp)

/-- The invariant of the grouping loop: the full list decomposes as
`left ++ prev :: right` where `prev` is the most recently grouped revision
(sitting at index `left.length`, the current `cur_master_idx`), the
remaining selection is a sublist of `right`, and the accumulated runs
`front ++ [lastg]` end with `prev` and already satisfy the run structure. -/
lemma groupLoop_spec (revs : List Str) (hnd : revs.Nodup) :
    ∀ (rest left : List Str) (prev : Str) (right : List Str)
      (front : List (List Str)) (lastg : List Str),
      revs = left ++ prev :: right →
      rest.Sublist right →
      lastg ≠ [] →
      lastg.getLast? = some prev →
      (∀ g ∈ front, g ≠ []) →
      (∀ g ∈ front ++ [lastg], List.Chain' (adjacentIn revs) g) →
      List.Chain' (runBoundary revs) (front ++ [lastg]) →
      ∃ gs, groupLoop revs left.length (front ++ [lastg]) rest = .ok gs ∧
        gs.join = (front ++ [lastg]).join ++ rest ∧
        (∀ g ∈ gs, g ≠ []) ∧
        (∀ g ∈ gs, List.Chain' (adjacentIn revs) g) ∧
        List.Chain' (runBoundary revs) gs := by
  intro rest
  induction rest with
  | nil =>
    intro left prev right front lastg hre hsub hlne hlast hfro hch hbd
    refine ⟨front ++ [lastg], rfl, by simp, ?_, hch, hbd⟩
    intro g hg
    rcases List.mem_append.1 hg with hg | hg
    · exact hfro g hg
    · rw [List.mem_singleton.1 hg]; exact hlne
  | cons rev rest' ih =>
    intro left prev right front lastg hre hsub hlne hlast hfro hch hbd
    obtain ⟨r₁, r₂, hr, hsub'⟩ := cons_sublist_decomp hsub
    subst hr
    subst hre
    obtain ⟨hpl, hrl, hpr, hrr₁⟩ := nodup_facts hnd
    have hdrop : (left ++ prev :: (r₁ ++ rev :: r₂)).drop left.length
        = prev :: (r₁ ++ rev :: r₂) := List.drop_left _ _
    have hpy : pyIndex rev (prev :: (r₁ ++ rev :: r₂)) = some (r₁.length + 1) := by
      have hpr' : ¬ prev = rev := hpr
      simp [pyIndex, hpr', pyIndex_append rev r₁ r₂ hrr₁]
    have hidx_prev : idxOf prev (left ++ prev :: (r₁ ++ rev :: r₂)) = left.length :=
      idxOf_append prev left _ hpl
    by_cases hadj : r₁ = []
    · -- adjacent: extend the current run
      subst hadj
      simp only [List.nil_append] at hpy hidx_prev hnd ih hch hbd hsub hdrop ⊢
      have hidx_rev : idxOf rev (left ++ prev :: rev :: r₂) = left.length + 1 := by
        have he : left ++ prev :: rev :: r₂ = (left ++ [prev]) ++ rev :: r₂ := by simp
        rw [he, idxOf_append rev (left ++ [prev]) r₂ (by
          intro hc
          rcases List.mem_append.1 hc with hc | hc
          · exact hrl hc
          · exact hpr (List.mem_singleton.1 hc).symm)]
        simp
      have hstep : groupLoop (left ++ prev :: rev :: r₂) left.length
          (front ++ [lastg]) (rev :: rest')
          = groupLoop (left ++ prev :: rev :: r₂) (left.length + 1)
              (appendToLast (front ++ [lastg]) rev) rest' := by
        simp [groupLoop, hdrop, hpy, Nat.add_comm]
      rw [hstep, appendToLast_concat]
      have hre2 : left ++ prev :: rev :: r₂ = (left ++ [prev]) ++ rev :: r₂ := by simp
      have hlen2 : left.length + 1 = (left ++ [prev]).length := by simp
      rw [hlen2]
      have hchadj : adjacentIn (left ++ prev :: rev :: r₂) prev rev := by
        unfold adjacentIn
        rw [hidx_rev, hidx_prev]
      obtain ⟨gs, hgs, hjoin, hne, hch', hbd'⟩ :=
        ih (left ++ [prev]) rev r₂ front (lastg ++ [rev]) hre2 hsub'
          (by simp)
          (List.getLast?_concat _)
          hfro
          (by
            intro g hg
            rcases List.mem_append.1 hg with hg | hg
            · exact hch g (List.mem_append.2 (Or.inl hg))
            · rw [List.mem_singleton.1 hg]
              refine List.Chain'.append
                (hch lastg (List.mem_append.2 (Or.inr (List.mem_singleton_self _))))
                (List.chain'_singleton _) ?_
              intro a ha b hb
              rw [hlast] at ha
              rw [Option.mem_def, Option.some_inj] at ha
              rw [List.head?_cons, Option.mem_def, Option.some_inj] at hb
              rw [← ha, ← hb]
              exact hchadj)
          (by
            rw [List.chain'_append] at hbd ⊢
            obtain ⟨hb1, hb2, hb3⟩ := hbd
            refine ⟨hb1, List.chain'_singleton _, ?_⟩
            intro x hx y hy
            rw [List.head?_cons, Option.mem_def, Option.some_inj] at hy
            have := hb3 x hx lastg (by rw [List.head?_cons]; rfl)
            unfold runBoundary at this ⊢
            rw [← hy, headD_append_single lastg rev hlne]
            exact this)
      exact ⟨gs, hgs, by simpa using hjoin, hne, hch', hbd'⟩
    · -- not adjacent: start a new run
      have hne1 : ¬ (r₁.length + 1 + left.length = left.length + 1) := by
        have : r₁.length ≠ 0 := fun h => hadj (List.length_eq_zero.1 h)
        omega
      have hstep : groupLoop (left ++ prev :: (r₁ ++ rev :: r₂)) left.length
          (front ++ [lastg]) (rev :: rest')
          = groupLoop (left ++ prev :: (r₁ ++ rev :: r₂)) (r₁.length + 1 + left.length)
              ((front ++ [lastg]) ++ [[rev]]) rest' := by
        simp [groupLoop, hdrop, hpy, hne1]
      rw [hstep]
      have hre2 : left ++ prev :: (r₁ ++ rev :: r₂) = (left ++ prev :: r₁) ++ rev :: r₂ := by
        simp
      have hrev_notin : rev ∉ left ++ prev :: r₁ := by
        intro hc
        rcases List.mem_append.1 hc with hc | hc
        · exact hrl hc
        · rcases List.mem_cons.1 hc with hc | hc
          · exact hpr hc.symm
          · exact hrr₁ hc
      have hidx_rev : idxOf rev (left ++ prev :: (r₁ ++ rev :: r₂))
          = left.length + 1 + r₁.length := by
        rw [hre2, idxOf_append rev (left ++ prev :: r₁) r₂ hrev_notin]
        simp [Nat.add_comm, Nat.add_assoc, Nat.add_left_comm]
      have hlen2 : r₁.length + 1 + left.length = (left ++ prev :: r₁).length := by
        simp
        omega
      rw [hlen2]
      obtain ⟨gs, hgs, hjoin, hne, hch', hbd'⟩ :=
        ih (left ++ prev :: r₁) rev r₂ (front ++ [lastg]) [rev] hre2 hsub'
          (by simp)
          rfl
          (by
            intro g hg
            rcases List.mem_append.1 hg with hg | hg
            · exact hfro g hg
            · rw [List.mem_singleton.1 hg]; exact hlne)
          (by
            intro g hg
            rcases List.mem_append.1 hg with hg | hg
            · exact hch g hg
            · rw [List.mem_singleton.1 hg]; exact List.chain'_singleton _)
          (by
            rw [List.chain'_append]
            refine ⟨hbd, List.chain'_singleton _, ?_⟩
            intro x hx y hy
            rw [List.getLast?_concat] at hx
            rw [Option.mem_def, Option.some_inj] at hx
            rw [List.head?_cons, Option.mem_def, Option.some_inj] at hy
            subst hx
            subst hy
            unfold runBoundary adjacentIn
            rw [List.getLastD_eq_getLast?, hlast]
            simp only [Option.getD_some, List.headD_cons]
            rw [hidx_rev, hidx_prev]
            have : r₁.length ≠ 0 := fun h => hadj (List.length_eq_zero.1 h)
            omega)
      exact ⟨gs, hgs, by simpa using hjoin, hne, hch', hbd'⟩

/-- The grouping phase on a non-empty duplicate-free selection that is an
order-preserving subsequence of the full list succeeds and produces exactly
the maximal contiguous runs. -/
lemma format_patchsets_groups_spec (to_export revs : List Str)
    (hne : to_export ≠ []) (hsub : to_export.Sublist revs) (hnd : revs.Nodup) :
    ∃ gs, format_patchsets_groups to_export revs = .ok gs ∧
      gs.join = to_export ∧ maximalRuns revs gs := by
  cases to_export with
  | nil => exact absurd rfl hne
  | cons cur rest =>
    obtain ⟨l₀, r₀, hr, hsub'⟩ := cons_sublist_decomp hsub
    subst hr
    have hcur : cur ∉ l₀ := by
      obtain ⟨-, h2, hdisj⟩ := List.nodup_append.1 hnd
      exact fun hc => hdisj hc (List.mem_cons_self _ _)
    have hpy : pyIndex cur (l₀ ++ cur :: r₀) = some l₀.length :=
      pyIndex_append cur l₀ r₀ hcur
    obtain ⟨gs, hgs, hjoin, hne', hch, hbd⟩ :=
      groupLoop_spec (l₀ ++ cur :: r₀) hnd rest l₀ cur r₀ [] [cur] rfl hsub'
        (by simp) rfl (by simp)
        (by
          intro g hg
          have hg' : g = [cur] := by simpa using hg
          rw [hg']
          exact List.chain'_singleton _)
        (by
          simp only [List.nil_append]
          exact List.chain'_singleton _)
    refine ⟨gs, ?_, by simpa using hjoin, hne', hch, hbd⟩
    simp [format_patchsets_groups, hpy]
    exact hgs

lemma except_bind_ok {α β : Type} (a : α) (f : α → Except PyErr β) :
    (Except.ok a : Except PyErr α) >>= f = f a := rfl

lemma except_bind_error {α β : Type} (e : PyErr) (f : α → Except PyErr β) :
    (Except.error e : Except PyErr α) >>= f = .error e := rfl

lemma except_map_ok {α β : Type} (g : α → β) (a : α) :
    (g <$> (Except.ok a : Except PyErr α)) = .ok (g a) := rfl

lemma except_map_error {α β : Type} (g : α → β) (e : PyErr) :
    (g <$> (Except.error e : Except PyErr α)) = .error e := rfl

lemma appendToLast_groups_ne (x : Str) :
    ∀ (acc : List (List Str)), (∀ g ∈ acc, g ≠ []) → ∀ g ∈ appendToLast acc x, g ≠ []
  | [], _, g, hg => by simp [appendToLast] at hg
  | [g0], _, g, hg => by
    simp only [appendToLast, List.mem_singleton] at hg
    rw [hg]
    simp
  | g0 :: g1 :: gs, h, g, hg => by
    simp only [appendToLast, List.mem_cons] at hg
    rcases hg with hg | hg
    · rw [hg]; exact h g0 (by simp)
    · exact appendToLast_groups_ne x (g1 :: gs)
        (fun g' hg' => h g' (List.mem_cons_of_mem _ hg')) g hg

lemma groupLoop_groups_ne (revs : List Str) :
    ∀ (rest : List Str) (n : Nat) (acc gs : List (List Str)),
      groupLoop revs n acc rest = .ok gs → (∀ g ∈ acc, g ≠ []) → ∀ g ∈ gs, g ≠ [] := by
  intro rest
  induction rest with
  | nil =>
    intro n acc gs h hacc
    simp only [groupLoop, Except.ok.injEq] at h
    rw [← h]
    exact hacc
  | cons rev rest' ih =>
    intro n acc gs h hacc
    unfold groupLoop at h
    cases hpy : pyIndex rev (revs.drop n) with
    | none => rw [hpy] at h; simp at h
    | some i =>
      rw [hpy] at h
      simp only at h
      by_cases hc : i + n = n + 1
      · rw [if_pos hc] at h
        exact ih _ _ gs h (appendToLast_groups_ne rev acc hacc)
      · rw [if_neg hc] at h
        refine ih _ _ gs h ?_
        intro g hg
        rcases List.mem_append.1 hg with hg | hg
        · exact hacc g hg
        · rw [List.mem_singleton.1 hg]; simp

lemma format_patchsets_groups_ne (to_export revs : List Str) (gs : List (List Str))
    (h : format_patchsets_groups to_export revs = .ok gs) : ∀ g ∈ gs, g ≠ [] := by
  cases to_export with
  | nil => simp [format_patchsets_groups] at h
  | cons cur rest =>
    simp only [format_patchsets_groups] at h
    cases hpy : pyIndex cur revs with
    | none => rw [hpy] at h; simp at h
    | some n =>
      rw [hpy] at h
      exact groupLoop_groups_ne revs rest n [[cur]] gs h (by simp)

lemma getLast?_of_ne_nil (l : List Str) (h : l ≠ []) :
    l.getLast? = some (l.getLastD []) := by
  rw [List.getLastD_eq_getLast?]
  cases hc : l.getLast? with
  | none => exact absurd (List.getLast?_eq_none_iff.1 hc) h
  | some y => rfl

lemma exportLoop_spec (f : ExportFn) :
    ∀ (gs : List (List Str)) (status : Nat) (outlines : List Str),
      (∀ g ∈ gs, g ≠ []) →
      exportLoop f status outlines gs
        = .ok ((if status = 0 then firstNonzero (gs.map (runStatus f)) else status),
               outlines ++ gs.map (runOut f)) := by
  intro gs
  induction gs with
  | nil =>
    intro status outlines _
    by_cases hs : status = 0 <;> simp [exportLoop, firstNonzero, hs]
  | cons g rest ih =>
    intro status outlines h
    have hg : g ≠ [] := h g (by simp)
    obtain ⟨x, xs, rfl⟩ : ∃ x xs, g = x :: xs := by
      cases g with
      | nil => exact absurd rfl hg
      | cons x xs => exact ⟨x, xs, rfl⟩
    obtain ⟨y, hy⟩ : ∃ y, (x :: xs).getLast? = some y := by
      cases hc : (x :: xs).getLast? with
      | none => exact absurd (List.getLast?_eq_none_iff.1 hc) hg
      | some y => exact ⟨y, rfl⟩
    have hpl : pyLast (x :: xs) = .ok y := by simp [pyLast, hy]
    have hrs : runStatus f (x :: xs) = (f x y (decide ((x :: xs).length > 1))).1 := by
      simp [runStatus, hy]
    have hro : runOut f (x :: xs) = (f x y (decide ((x :: xs).length > 1))).2 := by
      simp [runOut, hy]
    have hexp : exportLoop f status outlines ((x :: xs) :: rest)
        = exportLoop f (if status = 0 then status + runStatus f (x :: xs) else status)
            (outlines ++ [runOut f (x :: xs)]) rest := by
      conv_lhs => rw [exportLoop]
      simp only [pyHead, hpl, except_bind_ok, export_patchset, hrs, hro]
    rw [hexp, ih _ _ (fun g' hg' => h g' (List.mem_cons_of_mem _ hg'))]
    by_cases hs : status = 0
    · subst hs
      by_cases hz : runStatus f (x :: xs) = 0
      · simp [hz, firstNonzero]
      · simp [hz, firstNonzero]
    · simp [hs]

/-! ## Claims -/

/-- C1 (corrected): on a cache-missing call, `current_branch` returns the
empty string for a symlink whose normalized path is not under the real
`refs/heads` directory and for a path that is neither a symlink nor a plain
file; but for a plain file whose stripped content does not start with
`ref: refs/heads/` (a detached HEAD holding a bare commit id) it returns the
stripped file content, not the empty string. -/
theorem C1_current_branch_empty_cases (fs : FS) (c : Cache) (m : Nat)
    (hm : fs.stat_mtime = some m) (hmiss : c.st_mtime ≠ m) :
    (fs.islink = true →
      ¬ (fs.refs_heads_realpath ++ ['/']) <+: (pyReplace fs.head_abspath '\\' '/') →
      current_branch fs c = .ok (some [], c, [.realpath])) ∧
    (fs.islink = false → fs.isfile = false →
      current_branch fs c = .ok (some [], c, [])) ∧
    (fs.islink = false → fs.isfile = true →
      ¬ ("ref: refs/heads/".toList) <+: (pyStrip fs.head_contents) →
      current_branch fs c
        = .ok (some (pyStrip fs.head_contents),
            ⟨m, some (pyStrip fs.head_contents)⟩, [.slurp])) := by
  refine ⟨?_, ?_, ?_⟩
  · intro h1 h2; simp [current_branch, hm, hmiss, h1, h2]
  · intro h1 h2; simp [current_branch, hm, hmiss, h1, h2]
  · intro h1 h2 h3
    simp [current_branch, hm, hmiss, h1, h2]
    intro hpre
    exact absurd hpre h3

theorem C1_witness :
    (current_branch ⟨some 5, true, "/r/.git/HEAD".toList, "/r/.git/refs/heads".toList,
        false, []⟩ initial_cache = .ok (some [], initial_cache, [.realpath])) ∧
    (current_branch ⟨some 5, false, "/r/.git/HEAD".toList, "/r/.git/refs/heads".toList,
        false, []⟩ initial_cache = .ok (some [], initial_cache, [])) ∧
    (current_branch ⟨some 5, false, "/r/.git/HEAD".toList, "/r/.git/refs/heads".toList,
        true, "abc123\n".toList⟩ initial_cache
      = .ok (some (pyStrip ("abc123\n".toList)),
          ⟨5, some (pyStrip ("abc123\n".toList))⟩, [.slurp])) := by
  refine ⟨?_, ?_, ?_⟩
  · exact (C1_current_branch_empty_cases _ initial_cache 5 rfl (by decide)).1 rfl (by decide)
  · exact (C1_current_branch_empty_cases _ initial_cache 5 rfl (by decide)).2.1 rfl rfl
  · exact (C1_current_branch_empty_cases _ initial_cache 5 rfl (by decide)).2.2 rfl rfl (by decide)

/-- C1 counterexample: a detached-HEAD plain file containing a bare commit id
makes `current_branch` return the stripped id, not the empty string the claim
demands. -/
theorem C1_counterexample :
    current_branch ⟨some 5, false, "/r/.git/HEAD".toList, "/r/.git/refs/heads".toList,
        true, "abc123\n".toList⟩ initial_cache
      = .ok (some "abc123".toList, ⟨5, some "abc123".toList⟩, [.slurp]) ∧
    some "abc123".toList ≠ some ([] : Str) := by decide

/-- C2 (confirmed): when the raw diff output starts with `fatal:`,
`diff_helper` returns the empty string (or the empty pair when
`with_diff_header` is set) and never the tool's error text. -/
theorem C2_diff_helper_fatal (env : DiffEnv) (commit branch ref endref : Option Str)
    (filename : FileArg) (cached with_diff_header suppress_header rev : Bool)
    (hfatal : ("fatal:".toList) <+: env.diffoutput) :
    diff_helper env commit branch ref endref filename cached with_diff_header
        suppress_header rev
      = if with_diff_header then Sum.inr ([], []) else Sum.inl [] := by
  simp [diff_helper, hfatal]
  intro hn
  exact absurd hfatal hn

theorem C2_witness :
    diff_helper ⟨"fatal: bad revision".toList, true⟩ none none none none .nofile
        true false true false = Sum.inl [] ∧
    diff_helper ⟨"fatal: bad revision".toList, true⟩ none none none none .nofile
        true true true false = Sum.inr ([], []) := by
  constructor
  · exact C2_diff_helper_fatal ⟨"fatal: bad revision".toList, true⟩ none none none none
      .nofile true false true false (by decide)
  · exact C2_diff_helper_fatal ⟨"fatal: bad revision".toList, true⟩ none none none none
      .nofile true true true false (by decide)

/-- C5 (confirmed): `tracked_branch` returns the empty string whenever either
the branch-remote or the branch-merge configuration key is absent, and a
non-empty result only arises as `<remote>/<suffix>` from a merge value that
starts with `refs/heads/`; absence is never an error. -/
theorem C5_tracked_branch (cfg : Str → Option Str) (branch : Str) :
    ((cfg (remoteKey branch) = none ∨ cfg (mergeKey branch) = none) →
      tracked_branch cfg branch = []) ∧
    (tracked_branch cfg branch ≠ [] →
      ∃ remote ref, cfg (remoteKey branch) = some remote ∧
        cfg (mergeKey branch) = some ref ∧
        ("refs/heads/".toList) <+: ref ∧
        tracked_branch cfg branch
          = remote ++ ['/'] ++ ref.drop ("refs/heads/".toList).length) := by
  constructor
  · rintro (hr | hm)
    · simp [tracked_branch, has_param, hr]
    · simp only [tracked_branch, has_param, param, hm]
      simp
  · intro hne
    cases hr : cfg (remoteKey branch) with
    | none => exact absurd (by simp [tracked_branch, has_param, hr]) hne
    | some remote =>
      cases hm : cfg (mergeKey branch) with
      | none => exact absurd (by simp only [tracked_branch, has_param, param, hr, hm]; simp) hne
      | some ref =>
        by_cases hp : ("refs/heads/".toList) <+: ref
        · refine ⟨remote, ref, rfl, rfl, hp, ?_⟩
          by_cases hre : remote.isEmpty
          · exact absurd (by simp [tracked_branch, has_param, param, hr, hm, hre]) hne
          · simp [tracked_branch, has_param, param, hr, hm, hre, hp]
            exact hp
        · refine absurd ?_ hne
          simp [tracked_branch, has_param, param, hr, hm]
          exact fun _ => hp

theorem C5_witness :
    tracked_branch (fun k => if k = remoteKey ("main".toList) then some ("origin".toList)
      else none) ("main".toList) = [] := by
  exact (C5_tracked_branch _ ("main".toList)).1 (Or.inr (by decide))

/-- C6 (confirmed): whatever the ref enumeration returns, as long as each
line is a ref under `refs/remotes/`, the remote branch listing never
contains an entry equal to `HEAD`. -/
theorem C6_branch_list_no_remote_HEAD (raw : Str)
    (hpre : ∀ l ∈ splitlines raw, ("refs/remotes/".toList).isPrefixOf l = true) :
    ("HEAD".toList) ∉ branch_list raw true := by
  intro hmem
  simp only [branch_list, if_true, for_each_ref_basename, List.mem_map] at hmem
  obtain ⟨x, hxf, hdrop⟩ := hmem
  rw [List.mem_filter] at hxf
  obtain ⟨hxl, hns⟩ := hxf
  have hp : ("refs/remotes/".toList) <+: x :=
    List.isPrefixOf_iff_prefix.1 (hpre x hxl)
  obtain ⟨t, ht⟩ := hp
  have hdt : x.drop (("refs/remotes/".toList).length) = t := by
    rw [← ht]; exact List.drop_left _ _
  have htH : t = "HEAD".toList := by rw [← hdt, hdrop]
  have hx : x = "refs/remotes/HEAD".toList := by
    rw [← ht, htH]; decide
  rw [hx] at hns
  exact absurd hns (by decide)

theorem C6_witness :
    ("HEAD".toList) ∉
      branch_list ("refs/remotes/origin/main\nrefs/remotes/origin/HEAD\n".toList) true := by
  exact C6_branch_list_no_remote_HEAD _ (by decide)

/-- C7 (confirmed): `commit_diff` returns the decoded show output followed by
a blank line and the `diff_helper` result (uncached, header not suppressed)
exactly when the second header line starts with `Merge:`, and the decoded
show output alone otherwise. -/
theorem C7_commit_diff (showOutput : Str) (env : DiffEnv) (sha1 : Str) (i : Nat)
    (hidx : pyIndex '\n' showOutput = some i) :
    ((("Merge:".toList) <+: (showOutput.drop (i + 1)) →
      commit_diff showOutput env sha1 = .ok (showOutput ++ "\n\n".toList ++
        asStr (diff_helper env (some sha1) none none none .nofile false false false false)))) ∧
    ((¬ ("Merge:".toList) <+: (showOutput.drop (i + 1)) →
      commit_diff showOutput env sha1 = .ok showOutput)) := by
  constructor <;> intro h <;> simp [commit_diff, hidx, h, core_decode] <;> exact h

theorem C7_witness :
    commit_diff ("c0ffee\nMerge: a b\n".toList) ⟨"diff body".toList, true⟩ ("c0ffee".toList)
      = .ok (("c0ffee\nMerge: a b\n".toList) ++ "\n\n".toList ++
          asStr (diff_helper ⟨"diff body".toList, true⟩ (some ("c0ffee".toList))
            none none none .nofile false false false false)) ∧
    commit_diff ("c0ffee\nAuthor: x\n".toList) ⟨"diff body".toList, true⟩ ("c0ffee".toList)
      = .ok ("c0ffee\nAuthor: x\n".toList) := by
  constructor
  · exact (C7_commit_diff ("c0ffee\nMerge: a b\n".toList) ⟨"diff body".toList, true⟩
      ("c0ffee".toList) 6 (by decide)).1 (by decide)
  · exact (C7_commit_diff ("c0ffee\nAuthor: x\n".toList) ⟨"diff body".toList, true⟩
      ("c0ffee".toList) 6 (by decide)).2 (by decide)

/-- C9 (corrected): the cache replacement is two separate field assignments,
so a concurrent reader can observe the intermediate state that pairs the new
timestamp with the old value (plain-file path) or the new value with the old
timestamp (symlink path); only the individual field writes are atomic. -/
theorem C9_two_step_update (c0 : Cache) (m : Nat) (v : Str) :
    observable c0 (isfile_writes m v) = [c0, ⟨m, c0.value⟩, ⟨m, some v⟩] ∧
    observable c0 (symlink_writes m v) = [c0, ⟨c0.st_mtime, some v⟩, ⟨m, some v⟩] := by
  constructor <;> rfl

/-- C9 counterexample: starting from the initial cache and updating to
`(5, "master")` along the plain-file path, the intermediate observable state
`(5, None)` is neither the old nor the new pair — a torn read. -/
theorem C9_counterexample :
    (⟨5, none⟩ : Cache) ∈ observable initial_cache (isfile_writes 5 ("master".toList)) ∧
    (⟨5, none⟩ : Cache) ≠ initial_cache ∧
    (⟨5, none⟩ : Cache) ≠ ⟨5, some ("master".toList)⟩ := by decide

/-- C4 (corrected): whenever a call to `current_branch` leaves the cache
keyed at the file's current modification time, a second call under the same
modification time performs no content-reading filesystem operation and
returns the identical value; the non-caching degraded paths (bad symlink,
missing file) re-run the filesystem inspection instead. -/
theorem C4_cache_hit (fs : FS) (c : Cache) (m : Nat) (v : Option Str) (c1 : Cache)
    (ops : List ReadOp)
    (hm : fs.stat_mtime = some m)
    (h : current_branch fs c = .ok (v, c1, ops))
    (hc1 : c1.st_mtime = m) :
    current_branch fs c1 = .ok (v, c1, []) := by
  have hv := current_branch_cache_value fs c m v c1 ops hm h hc1
  simp [current_branch, hm, hc1, hv]

theorem C4_witness :
    current_branch ⟨some 5, false, "/r/.git/HEAD".toList, "/r/.git/refs/heads".toList,
        true, "ref: refs/heads/master\n".toList⟩ ⟨5, some "master".toList⟩
      = .ok (some "master".toList, ⟨5, some "master".toList⟩, []) := by
  exact C4_cache_hit _ initial_cache 5 (some "master".toList)
    ⟨5, some "master".toList⟩ [.slurp] rfl (by decide) rfl

/-- C4 counterexample: with HEAD a symlink that does not point under
`refs/heads`, the first call returns the empty branch without updating the
cache, so the second call under an unchanged modification time repeats the
content-reading `realpath` inspection (its read list is non-empty). -/
theorem C4_counterexample :
    current_branch ⟨some 5, true, "/r/.git/HEAD".toList, "/r/.git/refs/heads".toList,
        false, []⟩ initial_cache
      = .ok (some [], initial_cache, [.realpath]) ∧
    ([ReadOp.realpath] : List ReadOp) ≠ [] := by decide

/-- C3 (confirmed): on a non-empty duplicate-free order-preserving selection,
the grouping phase of `format_patchsets` partitions the selection into
maximal contiguous runs of the full revision list (consecutive members of a
run are positionally adjacent, consecutive runs are not); in particular
`[r1,r2,r4]` out of `[r1,r2,r3,r4,r5]` yields runs `[r1,r2]` and `[r4]`. -/
theorem C3_grouping :
    (∀ to_export revs, to_export ≠ [] → to_export.Sublist revs → revs.Nodup →
      ∃ gs, format_patchsets_groups to_export revs = .ok gs ∧
        gs.join = to_export ∧ maximalRuns revs gs) ∧
    format_patchsets_groups ["r1".toList, "r2".toList, "r4".toList]
      ["r1".toList, "r2".toList, "r3".toList, "r4".toList, "r5".toList]
      = .ok [["r1".toList, "r2".toList], ["r4".toList]] :=
  ⟨fun te revs h1 h2 h3 => format_patchsets_groups_spec te revs h1 h2 h3, by decide⟩

theorem C3_witness :
    ∃ gs, format_patchsets_groups ["a".toList, "b".toList]
        ["a".toList, "b".toList, "c".toList] = .ok gs ∧
      gs.join = ["a".toList, "b".toList] ∧
      maximalRuns ["a".toList, "b".toList, "c".toList] gs :=
  C3_grouping.1 _ _ (by decide) (by decide) (by decide)

/-- C8 (confirmed): whenever the grouping phase succeeds, `format_patchsets`
returns the first nonzero per-run export status (zero if all are zero)
together with the newline-joined concatenation of the per-run export logs. -/
theorem C8_aggregate_status (f : ExportFn) (to_export revs : List Str)
    (gs : List (List Str))
    (hgroups : format_patchsets_groups to_export revs = .ok gs) :
    format_patchsets f to_export revs
      = .ok (firstNonzero (gs.map (runStatus f)),
             List.intercalate ['\n'] (gs.map (runOut f))) := by
  have hne := format_patchsets_groups_ne to_export revs gs hgroups
  have hloop := exportLoop_spec f gs 0 [] hne
  simp [format_patchsets, hgroups, hloop, except_bind_ok, except_map_ok]

theorem C8_witness :
    format_patchsets (fun s e _ => (if s = "r4".toList then 2 else 0, s ++ e))
      ["r1".toList, "r2".toList, "r4".toList]
      ["r1".toList, "r2".toList, "r3".toList, "r4".toList, "r5".toList]
      = .ok (firstNonzero ([["r1".toList, "r2".toList], ["r4".toList]].map
               (runStatus (fun s e _ => (if s = "r4".toList then 2 else 0, s ++ e)))),
             List.intercalate ['\n'] ([["r1".toList, "r2".toList], ["r4".toList]].map
               (runOut (fun s e _ => (if s = "r4".toList then 2 else 0, s ++ e))))) :=
  C8_aggregate_status _ _ _ _ (by decide)

/-- C10 (confirmed): `format_patchsets` is partial in the selection: the
empty selection hits `to_export[0]` and raises `IndexError` instead of
returning a `(status, text)` pair, while a non-empty duplicate-free
order-preserving selection is guaranteed a defined result. -/
theorem C10_format_patchsets_empty_raises (f : ExportFn) (revs : List Str) :
    format_patchsets f [] revs = .error .indexError ∧
    (∀ to_export, to_export ≠ [] → to_export.Sublist revs → revs.Nodup →
      ∃ r, format_patchsets f to_export revs = .ok r) := by
  constructor
  · simp [format_patchsets, format_patchsets_groups, except_bind_error]
  · intro te h1 h2 h3
    obtain ⟨gs, hgs, -, -⟩ := format_patchsets_groups_spec te revs h1 h2 h3
    have hne := format_patchsets_groups_ne te revs gs hgs
    refine ⟨(firstNonzero (gs.map (runStatus f)),
      List.intercalate ['\n'] (gs.map (runOut f))), ?_⟩
    simp [format_patchsets, hgs, exportLoop_spec f gs 0 [] hne,
      except_bind_ok, except_map_ok]

theorem C10_witness :
    format_patchsets (fun s e _ => (0, s ++ e)) [] ["a".toList] = .error .indexError ∧
    ∃ r, format_patchsets (fun s e _ => (0, s ++ e)) ["a".toList] ["a".toList] = .ok r :=
  ⟨(C10_format_patchsets_empty_raises _ _).1,
   (C10_format_patchsets_empty_raises _ _).2 _ (by decide) (by decide) (by decide)⟩
